import Mathlib

/-!
Verification development for the LoveLamp friendship-lamp firmware.

The Python sources are embedded shallowly:
- colors are triples of integers, Python `int(...)` truncation is `pyInt` over `ℚ`;
- methods on stateful handler classes become functions taking and returning
  explicit state structures;
- code that can raise returns `Except`/`Option`, with the raised exception as
  the error value;
- Python floats are modeled as exact fractions (`Dec`, an unreduced
  numerator/denominator pair) where the code computes with them, and as `ℚ`
  in specification statements.
-/

namespace LoveLamp

/-- RGB color triple; channel values are Python ints. -/
abbrev Color := ℤ × ℤ × ℤ

/-- Python `int(x)` applied to a real value: truncation toward zero. -/
def pyInt (q : ℚ) : ℤ := if 0 ≤ q then ⌊q⌋ else -⌊-q⌋

/-- Elementwise sum `tuple(int(a + b) for a, b in zip(c1, c2))` from
`colorsdatabase.color_mix`. -/
def colorSum (c1 c2 : Color) : Color :=
  (c1.1 + c2.1, c1.2.1 + c2.2.1, c1.2.2 + c2.2.2)

/-- Python `max(cm)` over the three channels of a color. -/
def maxChannel (c : Color) : ℤ := max c.1 (max c.2.1 c.2.2)

/-- Embedding of `colorsdatabase.color_mix`: elementwise sum, then each channel
rescaled by `255 / max`.  Python raises `ZeroDivisionError` when `max(cm) == 0`;
that case is `none`. -/
def color_mix (c1 c2 : Color) : Option Color :=
  let cm := colorSum c1 c2
  if maxChannel cm = 0 then none
  else
    some (pyInt ((cm.1 : ℚ) * 255 / (maxChannel cm : ℚ)),
          pyInt ((cm.2.1 : ℚ) * 255 / (maxChannel cm : ℚ)),
          pyInt ((cm.2.2 : ℚ) * 255 / (maxChannel cm : ℚ)))

/-- Errors that `Lamp._compute_col` can raise: the explicit
`raise ValueError('Invalid state')`, or a `ZeroDivisionError` escaping from
`color_mix`. -/
inductive ColErr
  | invalidState
  | divByZero
deriving DecidableEq

/-- Lifts the possible `ZeroDivisionError` of `color_mix` into the error type of
`compute_col`. -/
def liftMix : Option Color → Except ColErr Color
  | some c => .ok c
  | none => .error .divByZero

/-- Embedding of `Lamp._compute_col` (src/lamp/lamp.py).  `ts` is
`self._this_state`, `fs` is `self._friend_state`; the three colors are
`self._conf.c['active_color']`, `self._conf.c['sleep_color']` and
`self._friend_col`. -/
def compute_col (ts fs : String) (active_color sleep_color friend_col : Color) :
    Except ColErr Color :=
  if ts = "active" ∨ ts = "holding" then
    if fs = "active" ∨ fs = "holding" then liftMix (color_mix active_color friend_col)
    else if fs = "sleep" then .ok friend_col
    else if fs = "inactive" then .ok active_color
    else .error .invalidState
  else if ts = "sleep" then
    if fs = "sleep" then liftMix (color_mix sleep_color friend_col)
    else if fs = "active" ∨ fs = "holding" then .ok friend_col
    else if fs = "inactive" then .ok sleep_color
    else .error .invalidState
  else if ts = "inactive" then
    if fs ≠ "inactive" then .ok friend_col else .ok (0, 0, 0)
  else .error .invalidState

/-- The four states of the defined enumeration {inactive, active, holding, sleep}. -/
def valid_state (s : String) : Bool :=
  s == "inactive" || s == "active" || s == "holding" || s == "sleep"

/-- Embedding of `exceptions.NetworkException`: a message plus a numeric error
code. -/
structure NetworkException where
  message : String
  errorcode : ℤ
deriving DecidableEq

/-- The mutable reconnection state of `serverhandler.ConnectionHandler`:
`_reconnect_iteration` and `_last_fail` (seconds, from `time.time()`). -/
structure ConnectionState where
  reconnect_iteration : ℕ
  last_fail : ℤ
deriving DecidableEq

namespace ConnectionHandler

/-- `ConnectionHandler.reconnect_policy`: minutes between reconnection attempts. -/
def reconnect_policy : List ℤ := [0, 0, 0, 1, 5, 15, 30, 60, 180, 180, 180]

/-- `ConnectionHandler.success_limit`: minutes a connection must persist to be
deemed successful. -/
def success_limit : ℤ := 5

/-- Embedding of `ConnectionHandler._connfail` (src/lamp/serverhandler.py).
`now` is `time.time()`.  Returns the updated state together with the computed
wait in seconds, or re-raises the original exception (`Except.error error`)
when the schedule lookup raises `IndexError`.  Python's
`reconnect_policy[min(0, int(it/2))]` cannot be out of range, so it is modeled
with `getD`; the fallible lookup `reconnect_policy[int(it/2)]` is modeled with
`getElem?`.  `connfail_iter` is the iteration update done at the top of the
method. -/
def connfail_iter (now : ℤ) (st : ConnectionState) : ℕ :=
  if now - st.last_fail -
      reconnect_policy.getD (min 0 (st.reconnect_iteration / 2)) 0 * 60 ≤
      success_limit * 60
  then st.reconnect_iteration + 1
  else 0

/-- The rest of `_connfail`: computes the wait (in seconds) from the updated
iteration, or gives up. -/
def connfail (now : ℤ) (st : ConnectionState) (error : NetworkException) :
    Except NetworkException (ConnectionState × ℤ) :=
  if connfail_iter now st % 2 = 0 then
    match reconnect_policy[connfail_iter now st / 2]? with
    | some w => .ok (⟨connfail_iter now st, now⟩, w * 60)
    | none => .error error
  else
    .ok (⟨connfail_iter now st, now⟩, 0)

end ConnectionHandler

/-- Settings of `sensorhandler.SensorHandler`.  `sleep_window` and
`hold_threshold` are whole tick counts (`verify_setup` enforces integrality
and positivity). -/
structure SensorCfg where
  placed_sensitivity : ℤ
  removed_sensitivity : ℤ
  sleep_window : ℕ
  hold_threshold : ℕ
deriving DecidableEq

/-- Mutable state of `sensorhandler.SensorHandler`. -/
structure SensorState where
  prev : ℤ
  is_hand_placed : Bool
  is_holding : Bool
  hand_placed_duration : ℕ
  since_placed : ℕ
deriving DecidableEq

namespace SensorHandler

/-- Embedding of `SensorHandler.tick` (src/lamp/sensorhandler.py).  `new` is
the sample `self._sensor.read_u16()`; the returned `Option String` is the
emitted gesture (`none` for Python's `None`). -/
def tick (c : SensorCfg) (st : SensorState) (new : ℤ) :
    SensorState × Option String :=
  let st1 : SensorState :=
    if st.is_hand_placed
    then { st with hand_placed_duration := st.hand_placed_duration + 1 }
    else { st with since_placed := st.since_placed + 1 }
  let r2 : SensorState × Option String :=
    if new - st1.prev > c.placed_sensitivity ∧ st1.is_hand_placed = false then
      ({ st1 with is_hand_placed := true, since_placed := 0 },
       some (if st1.since_placed < c.sleep_window then "sleep" else "active"))
    else if new - st1.prev < c.removed_sensitivity then
      let st2 : SensorState :=
        { st1 with is_hand_placed := false, hand_placed_duration := 0 }
      if st1.is_holding then ({ st2 with is_holding := false }, some "active")
      else (st2, none)
    else (st1, none)
  let r3 : SensorState × Option String :=
    if r2.1.hand_placed_duration = c.hold_threshold then
      ({ r2.1 with is_holding := true }, some "holding")
    else r2
  ({ r3.1 with prev := new }, r3.2)

/-- Folds `tick` over a list of samples, collecting the emissions. -/
def run (c : SensorCfg) (st : SensorState) : List ℤ → SensorState × List (Option String)
  | [] => (st, [])
  | s :: rest =>
    let r := tick c st s
    let rr := run c r.1 rest
    (rr.1, r.2 :: rr.2)

/-- The samples keep the hand placed: no tick's delta drops below the removal
threshold (given the hand is already placed, the placement rule cannot fire
either, so the hand stays placed throughout). -/
def placedThroughout (c : SensorCfg) (prev : ℤ) : List ℤ → Bool
  | [] => true
  | s :: rest => (decide (c.removed_sensitivity ≤ s - prev)) && placedThroughout c s rest

/-- Data invariant of the sensor state machine: an unplaced hand has zero
placed-duration, and a holding hand is placed. -/
def Inv (st : SensorState) : Prop :=
  (st.is_hand_placed = false → st.hand_placed_duration = 0)
  ∧ (st.is_holding = true → st.is_hand_placed = true)

/-- Initial state of `SensorHandler` after `update_settings`: nothing placed,
nothing held, zero duration, `since_placed` preset to the sleep window. -/
def init (c : SensorCfg) : SensorState :=
  { prev := 0, is_hand_placed := false, is_holding := false,
    hand_placed_duration := 0, since_placed := c.sleep_window }

end SensorHandler

namespace LedHandler

/-- Embedding of `LedHandler._transition_animation` (src/lamp/ledhandler.py).
`pixel0` is `self._leds.get_pixel(0)`, `is_transitioning` the flag on entry;
the method returns the color to display and the updated flag (it clears the
flag when the transition is finished). -/
def transition_animation (pixel0 : Color) (is_transitioning : Bool)
    (t duration : ℚ) (c1 c2 : Color) : Color × Bool :=
  if pixel0 = c2 ∨ t > duration then (c2, false)
  else
    ((pyInt ((c1.1 : ℚ) * (1 - t / duration) + (c2.1 : ℚ) * (t / duration)),
      pyInt ((c1.2.1 : ℚ) * (1 - t / duration) + (c2.2.1 : ℚ) * (t / duration)),
      pyInt ((c1.2.2 : ℚ) * (1 - t / duration) + (c2.2.2 : ℚ) * (t / duration))),
     is_transitioning)

end LedHandler

/-- Python numbers handled by `utils.gcd`, modeled as exact (unreduced)
fractions `num / den`.  All uses keep `den` positive. -/
structure Dec where
  num : ℤ
  den : ℕ
deriving DecidableEq

/-- Rational value of a `Dec`. -/
def Dec.val (d : Dec) : ℚ := (d.num : ℚ) / (d.den : ℚ)

/-- Python `e % 1 == 0`: the number has no fractional part. -/
def Dec.isInt (d : Dec) : Bool := d.num % (d.den : ℤ) == 0

/-- Python `int`-style value of an integral `Dec` (the division is exact on
the values reached by `gcd`). -/
def Dec.toInt (d : Dec) : ℤ := d.num / (d.den : ℤ)

/-- Embedding of `utils._all_ints`. -/
def all_ints (l : List Dec) : Bool := l.all Dec.isInt

/-- Embedding of `utils._element_scale` for the natural scale factors `gcd`
uses. -/
def element_scale (l : List Dec) (scale_fac : ℕ) : List Dec :=
  l.map (fun e => ⟨e.num * scale_fac, e.den⟩)

/-- Embedding of `utils._scale_to_int`, with explicit fuel for the unbounded
`while` loop; returns the accumulated scale factor. -/
def scale_to_int : ℕ → List Dec → Option ℕ
  | 0, floats => if all_ints floats then some 1 else none
  | fuel + 1, floats =>
    if all_ints floats then some 1
    else (scale_to_int fuel (element_scale floats 10)).map (fun s => 10 * s)

/-- Embedding of `utils._gcd_two` (the loop `while b: a, b = b, a % b`), with
fuel for the loop; `b + 1` rounds always suffice.  The `round(_, 3)` in the
source is the identity on the integer values reached here. -/
def gcd_two_fuel : ℕ → ℕ → ℕ → ℕ
  | 0, a, _ => a
  | fuel + 1, a, b => if b = 0 then a else gcd_two_fuel fuel b (a % b)

/-- `utils._gcd_two` with sufficient fuel. -/
def gcd_two (a b : ℕ) : ℕ := gcd_two_fuel (b + 1) a b

/-- Embedding of `utils.gcd`: scale all numbers to integers, fold Euclid
left-to-right over them, then divide the result back by the scale factor
(kept as an unreduced fraction).  The empty argument list, on which Python
raises `IndexError`, is `none`. -/
def gcd (fuel : ℕ) (numbers : List Dec) : Option Dec :=
  match scale_to_int fuel numbers with
  | none => none
  | some scale_fac =>
    match (element_scale numbers scale_fac).map (fun e => e.toInt.toNat) with
    | [] => none
    | n :: ns => some ⟨(ns.foldl gcd_two n : ℕ), scale_fac⟩

/-- Python strings of the wire protocol, modeled as lists of characters. -/
abbrev Str := List Char

/-- Python `s.split(sep)` for a one-character separator. -/
def pySplit (sep : Char) : Str → List Str
  | [] => [[]]
  | c :: rest =>
    if c = sep then [] :: pySplit sep rest
    else
      match pySplit sep rest with
      | [] => [[c]]
      | h :: t => (c :: h) :: t

/-- Python `s.replace(c, '')` for a one-character pattern: removes every
occurrence. -/
def pyRemove (c : Char) (s : Str) : Str := s.filter (fun x => x ≠ c)

/-- Decimal digit character. -/
def digitChar (d : ℕ) : Char := Char.ofNat (48 + d)

/-- Decimal digits of `n`, most significant first (Python `str(n)` for a
nonnegative int), with fuel for the recursion; `n + 1` suffices. -/
def natToDigitsAux : ℕ → ℕ → Str
  | 0, _ => []
  | fuel + 1, n =>
    if n < 10 then [digitChar n]
    else natToDigitsAux fuel (n / 10) ++ [digitChar (n % 10)]

/-- Python `str(n)` for a nonnegative int. -/
def natToDigits (n : ℕ) : Str := natToDigitsAux (n + 1) n

/-- Value of a decimal digit character, if it is one. -/
def charToDigit (c : Char) : Option ℕ :=
  if 48 ≤ c.toNat ∧ c.toNat ≤ 57 then some (c.toNat - 48) else none

def parseNatAux : Str → ℕ → Option ℕ
  | [], acc => some acc
  | c :: rest, acc =>
    match charToDigit c with
    | some d => parseNatAux rest (acc * 10 + d)
    | none => none

/-- Python `int(v)` on the nonnegative decimal strings occurring in the wire
format; the empty string raises `ValueError` (`none`). -/
def parseNat : Str → Option ℕ
  | [] => none
  | s => parseNatAux s 0

/-- Python `str((r, g, b))` for a tuple of nonnegative ints. -/
def strTuple3 (r g b : ℕ) : Str :=
  '(' :: (natToDigits r ++ ',' :: ' ' :: (natToDigits g ++ ',' :: ' ' :: (natToDigits b ++ [')'])))

namespace ServerHandler

/-- Body built by `ServerHandler.send_state` (src/lamp/serverhandler.py):
`state + ':' + str(col)`. -/
def send_state_body (state : Str) (r g b : ℕ) : Str :=
  state ++ ':' :: strTuple3 r g b

/-- The room-topic branch of `ServerHandler._handle_msg`: split the body on
`':'` (Python's tuple unpacking raises unless there are exactly two parts),
strip `'('`, `')'` and `' '`, split on `','`, and parse each part with `int`. -/
def handle_room_msg (msg : Str) : Option (Str × List ℕ) :=
  match pySplit ':' msg with
  | [state, color] =>
    match (pySplit ',' (pyRemove ' ' (pyRemove ')' (pyRemove '(' color)))).mapM parseNat with
    | some vals => some (state, vals)
    | none => none
  | _ => none

/-- The four state strings of the wire protocol. -/
def wireStates : List Str :=
  ["inactive".data, "active".data, "holding".data, "sleep".data]

end ServerHandler

/-- `liftMix` never produces the `invalidState` error. -/
theorem liftMix_ne_invalidState (o : Option Color) :
    liftMix o ≠ .error .invalidState := by
  cases o <;> simp [liftMix]

/-- If the channelwise maximum of the two colors' sum is nonzero, `color_mix`
succeeds, hence `liftMix` returns an `ok` value. -/
theorem liftMix_ok (c1 c2 : Color) (h : maxChannel (colorSum c1 c2) ≠ 0) :
    ∃ c, liftMix (color_mix c1 c2) = .ok c := by
  unfold color_mix liftMix
  rw [if_neg h]
  exact ⟨_, rfl⟩

/-- C2 (amended): `compute_col` raises `ValueError` exactly when the local
state is outside the enumeration {inactive, active, holding, sleep}, or the
local state is one of active/holding/sleep and the peer state is outside the
enumeration.  When the local state is `inactive`, any other peer state —
including values outside the enumeration — silently yields the stored peer
color.  Every state pair inside the enumeration returns a color without
raising (given that the two color mixes it may take are well defined). -/
theorem compute_col_validation (ts fs : String) (ac sc fc : Color)
    (hma : maxChannel (colorSum ac fc) ≠ 0)
    (hms : maxChannel (colorSum sc fc) ≠ 0) :
    (compute_col ts fs ac sc fc = .error .invalidState
      ↔ (valid_state ts = false ∨ (ts ≠ "inactive" ∧ valid_state fs = false)))
    ∧ (valid_state ts = true → valid_state fs = true →
        ∃ c, compute_col ts fs ac sc fc = .ok c) := by
  obtain ⟨ca, hca⟩ := liftMix_ok ac fc hma
  obtain ⟨cs, hcs⟩ := liftMix_ok sc fc hms
  unfold compute_col
  split_ifs with h1 h2 h3 h4 h5 h6 h7 h8 h9 h10 <;>
    (try casesm* _ ∨ _) <;> simp_all [valid_state]

/-- C2 counterexample: `"bogus"` is outside the state enumeration, yet
`compute_col` with local state `inactive` and peer state `"bogus"` does not
raise — it silently returns the peer color. -/
theorem compute_col_validation_cex :
    valid_state "bogus" = false
    ∧ compute_col "inactive" "bogus" (1, 0, 0) (0, 1, 0) (7, 8, 9) = .ok (7, 8, 9) :=
  ⟨rfl, rfl⟩

/-- C2 witness: local state `active` with the out-of-enumeration peer state
`"zz"` raises the `ValueError`. -/
theorem compute_col_validation_witness :
    compute_col "active" "zz" (1, 0, 0) (0, 1, 0) (0, 0, 1) = .error .invalidState :=
  (compute_col_validation "active" "zz" (1, 0, 0) (0, 1, 0) (0, 0, 1)
      (by decide) (by decide)).1.mpr (Or.inr ⟨by decide, by decide⟩)

/-- C3 (amended): `compute_col` with local state `sleep` and peer state
`inactive` returns the configured sleep color, but with local state `inactive`
and peer state `sleep` it returns the peer's last reported color, not the
configured sleep color. -/
theorem compute_col_sleep_side (ac sc fc : Color) :
    compute_col "sleep" "inactive" ac sc fc = .ok sc
    ∧ compute_col "inactive" "sleep" ac sc fc = .ok fc :=
  ⟨rfl, rfl⟩

/-- C3 counterexample: with local state `inactive`, peer state `sleep`, sleep
color `(0, 0, 255)` and peer color `(9, 9, 9)`, `compute_col` returns the peer
color `(9, 9, 9)`, which differs from the configured sleep color. -/
theorem compute_col_inactive_sleep_cex :
    compute_col "inactive" "sleep" (255, 0, 0) (0, 0, 255) (9, 9, 9) = .ok (9, 9, 9)
    ∧ ((9, 9, 9) : Color) ≠ (0, 0, 255) :=
  ⟨rfl, by decide⟩

namespace ConnectionHandler

/-- C1 (amended): whenever `_connfail` returns normally, the wait it applied
before reconnection attempt `i` (the post-increment iteration) is the schedule
value `reconnect_policy[i / 2] * 60` seconds when `i` is even (primary
credentials), and `0` when `i` is odd (backup credentials are retried
immediately, with no wait). -/
theorem connfail_wait (now : ℤ) (st : ConnectionState) (error : NetworkException)
    (st' : ConnectionState) (w : ℤ)
    (h : connfail now st error = .ok (st', w)) :
    w = if st'.reconnect_iteration % 2 = 0
        then reconnect_policy.getD (st'.reconnect_iteration / 2) 0 * 60
        else 0 := by
  unfold connfail at h
  split at h
  next heven =>
    split at h
    next k heq =>
      rw [Except.ok.injEq, Prod.mk.injEq] at h
      obtain ⟨rfl, rfl⟩ := h
      simp_all [List.getD_eq_getElem?_getD]
    next => exact absurd h (by simp)
  next hodd =>
    rw [Except.ok.injEq, Prod.mk.injEq] at h
    obtain ⟨rfl, rfl⟩ := h
    simp_all

/-- C1 witness: entering `_connfail` with iteration 5 (within the success
window) advances to iteration 6 and waits `reconnect_policy[3] * 60 = 60`
seconds. -/
theorem connfail_wait_witness :
    connfail 0 ⟨5, 0⟩ ⟨"e", 1⟩ = .ok (⟨6, 0⟩, 60)
    ∧ (60 : ℤ) = if (6 : ℕ) % 2 = 0 then reconnect_policy.getD (6 / 2) 0 * 60 else 0 :=
  ⟨rfl, connfail_wait 0 ⟨5, 0⟩ ⟨"e", 1⟩ ⟨6, 0⟩ 60 rfl⟩

/-- C1 counterexample: at post-increment iteration 7 the claim's schedule value
is `reconnect_policy[7 / 2] * 60 = 60` seconds, but `_connfail` waits 0 seconds
(odd iterations skip the schedule and retry the backup credentials at once). -/
theorem connfail_wait_cex :
    connfail 0 ⟨6, 0⟩ ⟨"e", 1⟩ = .ok (⟨7, 0⟩, 0)
    ∧ reconnect_policy.getD (7 / 2) 0 * 60 = 60
    ∧ (0 : ℤ) ≠ 60 :=
  ⟨rfl, rfl, by decide⟩

/-- C4: when the reconnect iteration advances past the end of the backoff
schedule (post-increment index `i / 2` out of range, which under the invariant
of the second conjunct first happens at iteration 22), `_connfail` re-raises
the original `NetworkException` unchanged — the very same message and error
code — instead of returning a wait.  The second conjunct shows the hypothesis
`reconnect_iteration ≤ 21` is an invariant of every normal return, so it holds
at every reachable call (the counter starts at 0). -/
theorem connfail_exhausted (now : ℤ) (st : ConnectionState) (error : NetworkException)
    (hiter : st.reconnect_iteration ≤ 21) :
    ((reconnect_policy.length ≤ (st.reconnect_iteration + 1) / 2
        ∧ now - st.last_fail -
            reconnect_policy.getD (min 0 (st.reconnect_iteration / 2)) 0 * 60 ≤
            success_limit * 60)
      → connfail now st error = .error error)
    ∧ (∀ st' w, connfail now st error = .ok (st', w) →
        st'.reconnect_iteration ≤ 21) := by
  have hlen11 : reconnect_policy.length = 11 := rfl
  constructor
  · rintro ⟨hlen, hcond⟩
    rw [hlen11] at hlen
    have h21 : st.reconnect_iteration = 21 := by omega
    have hi : connfail_iter now st = 22 := by
      unfold connfail_iter
      rw [if_pos hcond, h21]
    unfold connfail
    rw [hi]
    rfl
  · intro st' w h
    have hbound : connfail_iter now st ≤ st.reconnect_iteration + 1 := by
      unfold connfail_iter; split <;> omega
    unfold connfail at h
    split at h
    next heven =>
      split at h
      next k heq =>
        rw [Except.ok.injEq, Prod.mk.injEq] at h
        obtain ⟨rfl, rfl⟩ := h
        have hlt : connfail_iter now st / 2 < reconnect_policy.length :=
          (List.getElem?_eq_some_iff.mp heq).1
        rw [hlen11] at hlt
        show connfail_iter now st ≤ 21
        omega
      next => exact absurd h (by simp)
    next hodd =>
      rw [Except.ok.injEq, Prod.mk.injEq] at h
      obtain ⟨rfl, rfl⟩ := h
      show connfail_iter now st ≤ 21
      omega

/-- C4 witness: entering `_connfail` at iteration 21 within the success window
advances to 22, whose schedule index 11 is out of range, and the original
exception (message `"boom"`, code 4) is re-raised unchanged. -/
theorem connfail_exhausted_witness :
    connfail 0 ⟨21, 0⟩ ⟨"boom", 4⟩ = .error ⟨"boom", 4⟩ :=
  (connfail_exhausted 0 ⟨21, 0⟩ ⟨"boom", 4⟩ (by decide)).1 ⟨by decide, by decide⟩

end ConnectionHandler

namespace SensorHandler

theorem init_inv (c : SensorCfg) : Inv (init c) := by
  constructor <;> simp [init]

/-- `tick` preserves the sensor data invariant whenever the hold threshold is
positive (as `verify_setup` requires). -/
theorem tick_inv (c : SensorCfg) (st : SensorState) (new : ℤ)
    (hth : c.hold_threshold ≠ 0) (h : Inv st) : Inv (tick c st new).1 := by
  obtain ⟨h1, h2⟩ := h
  unfold tick
  cases hp : st.is_hand_placed <;>
    simp only [hp, Bool.false_eq_true, if_true, if_false] <;>
    split_ifs <;>
    simp_all [Inv]

/-- C5: when the hand is not placed and the sample delta exceeds the placement
sensitivity, `tick` emits `sleep` when fewer than `sleep_window` ticks have
elapsed since the last removal (the counter is pre-incremented, so the current
tick counts), emits `active` otherwise, and in either case resets the
since-removal counter to zero.  The hypotheses `hand_placed_duration = 0` and
`hold_threshold ≠ 0` hold in every reachable state by `tick_inv`/`init_inv`
and `verify_setup`. -/
theorem tick_placement (c : SensorCfg) (st : SensorState) (new : ℤ)
    (hp : st.is_hand_placed = false)
    (hd : new - st.prev > c.placed_sensitivity)
    (hdur : st.hand_placed_duration = 0)
    (hth : c.hold_threshold ≠ 0) :
    (tick c st new).2
      = some (if st.since_placed + 1 < c.sleep_window then "sleep" else "active")
    ∧ (tick c st new).1.since_placed = 0 := by
  unfold tick
  simp [hp, hd, hdur, Ne.symm hth]

/-- C5 witness: an unplaced hand, a jump of 50 over threshold 10, with 100
idle ticks against a sleep window of 5, emits `active` and resets the counter. -/
theorem tick_placement_witness :
    (tick ⟨10, -10, 5, 3⟩ ⟨0, false, false, 0, 100⟩ 50).2
      = some (if 100 + 1 < 5 then "sleep" else "active")
    ∧ (tick ⟨10, -10, 5, 3⟩ ⟨0, false, false, 0, 100⟩ 50).1.since_placed = 0 :=
  tick_placement ⟨10, -10, 5, 3⟩ ⟨0, false, false, 0, 100⟩ 50 rfl (by decide) rfl
    (by decide)

/-- One tick under a continuously placed hand: the duration advances by one and
`holding` is emitted exactly when the duration reaches the hold threshold. -/
theorem tick_placed (c : SensorCfg) (st : SensorState) (new : ℤ)
    (hp : st.is_hand_placed = true)
    (hq : c.removed_sensitivity ≤ new - st.prev) :
    tick c st new =
      ({ st with prev := new,
                 hand_placed_duration := st.hand_placed_duration + 1,
                 is_holding :=
                   if st.hand_placed_duration + 1 = c.hold_threshold then true
                   else st.is_holding },
       if st.hand_placed_duration + 1 = c.hold_threshold then some "holding"
       else none) := by
  unfold tick
  simp only [hp, if_true, Bool.true_eq_false, and_false, if_false,
    not_lt.mpr hq]
  split_ifs with h <;> simp_all

/-- Characterization of a run under continuous placement: the emission at tick
`k` is `holding` exactly when the placed duration reaches the hold threshold
there, and `none` otherwise. -/
theorem run_placed (c : SensorCfg) :
    ∀ (samples : List ℤ) (st : SensorState),
      st.is_hand_placed = true →
      placedThroughout c st.prev samples = true →
      (run c st samples).2 =
        (List.range samples.length).map
          (fun k => if st.hand_placed_duration + k + 1 = c.hold_threshold
                    then some "holding" else none) := by
  intro samples
  induction samples with
  | nil => intro st hp hq; simp [run]
  | cons s rest ih =>
    intro st hp hq
    simp only [placedThroughout, Bool.and_eq_true, decide_eq_true_eq] at hq
    obtain ⟨hq1, hq2⟩ := hq
    simp only [run, tick_placed c st s hp hq1]
    rw [ih _ (by simp [hp]) (by simpa using hq2)]
    have harith : ∀ k : ℕ,
        st.hand_placed_duration + 1 + k + 1 = st.hand_placed_duration + (k + 1) + 1 := by
      omega
    simp [List.range_succ_eq_map, List.map_map, Function.comp_def, harith]

/-- C6: (i) under continuous placement, the run emits `holding` at exactly the
tick where the continuously-placed duration reaches `hold_threshold`, and
`none` at every other tick — in particular `holding` is emitted at most once,
since the duration passes the threshold at most once; (ii) a sample drop below
`removed_sensitivity` while holding emits `active` and clears the holding
flag.  The hypotheses `is_hand_placed = true` (a holding hand is placed) and
`hold_threshold ≠ 0` hold in every reachable state by `tick_inv`/`init_inv`
and `verify_setup`. -/
theorem tick_holding (c : SensorCfg) :
    (∀ (st : SensorState) (samples : List ℤ),
       st.is_hand_placed = true →
       placedThroughout c st.prev samples = true →
       (run c st samples).2 =
         (List.range samples.length).map
           (fun k => if st.hand_placed_duration + k + 1 = c.hold_threshold
                     then some "holding" else none))
    ∧ (∀ (st : SensorState) (new : ℤ),
       st.is_holding = true → st.is_hand_placed = true →
       new - st.prev < c.removed_sensitivity → c.hold_threshold ≠ 0 →
       (tick c st new).2 = some "active" ∧ (tick c st new).1.is_holding = false) := by
  constructor
  · exact fun st samples hp hq => run_placed c samples st hp hq
  · intro st new hh hp hlt hth
    unfold tick
    simp [hp, hh, hlt, Ne.symm hth]

/-- C6 witness: with hold threshold 2, a placed hand over three quiet samples
emits `holding` exactly at the second tick; a drop of 100 while holding emits
`active` and clears the flag. -/
theorem tick_holding_witness :
    (run ⟨10, -10, 5, 2⟩ ⟨0, true, false, 0, 0⟩ [0, 0, 0]).2
      = (List.range 3).map (fun k => if 0 + k + 1 = 2 then some "holding" else none)
    ∧ (tick ⟨10, -10, 5, 2⟩ ⟨0, true, true, 2, 0⟩ (-100)).2 = some "active"
    ∧ (tick ⟨10, -10, 5, 2⟩ ⟨0, true, true, 2, 0⟩ (-100)).1.is_holding = false := by
  have h2 := (tick_holding ⟨10, -10, 5, 2⟩).2 ⟨0, true, true, 2, 0⟩ (-100) rfl rfl
    (by decide) (by decide)
  exact ⟨(tick_holding ⟨10, -10, 5, 2⟩).1 ⟨0, true, false, 0, 0⟩ [0, 0, 0] rfl
    (by decide), h2.1, h2.2⟩


end SensorHandler

namespace LedHandler

/-- The linear blend evaluated at half the duration truncates to the channel
midpoint: twice the result is within one of the exact channel sum. -/
theorem pyInt_midpoint (a b : ℤ) (ha : 0 ≤ a) (hb : 0 ≤ b) (D : ℚ) (hD : 0 < D) :
    a + b - 1 ≤ 2 * pyInt ((a : ℚ) * (1 - D / 2 / D) + (b : ℚ) * (D / 2 / D))
    ∧ 2 * pyInt ((a : ℚ) * (1 - D / 2 / D) + (b : ℚ) * (D / 2 / D)) ≤ a + b := by
  have hquot : D / 2 / D = (1 / 2 : ℚ) := by
    field_simp
    ring
  rw [hquot]
  have hval : (a : ℚ) * (1 - 1 / 2) + (b : ℚ) * (1 / 2) = ((a : ℚ) + b) / 2 := by
    ring
  rw [hval]
  have hnn : (0 : ℚ) ≤ ((a : ℚ) + b) / 2 := by positivity
  unfold pyInt
  rw [if_pos hnn]
  have hfl : ((⌊((a : ℚ) + b) / 2⌋ : ℤ) : ℚ) ≤ ((a : ℚ) + b) / 2 := Int.floor_le _
  have hfg : ((a : ℚ) + b) / 2 - 1 < ((⌊((a : ℚ) + b) / 2⌋ : ℤ) : ℚ) :=
    Int.sub_one_lt_floor _
  have h1z : a + b - 2 < 2 * ⌊((a : ℚ) + b) / 2⌋ := by
    have : ((a : ℚ) + b) - 2 < 2 * ((⌊((a : ℚ) + b) / 2⌋ : ℤ) : ℚ) := by linarith
    exact_mod_cast this
  have h2z : 2 * ⌊((a : ℚ) + b) / 2⌋ ≤ a + b := by
    have : 2 * ((⌊((a : ℚ) + b) / 2⌋ : ℤ) : ℚ) ≤ (a : ℚ) + b := by linarith
    exact_mod_cast this
  omega

/-- C9: transitioning from color A to color B over duration D, with the
displayed pixel not yet equal to B, the blend sampled at elapsed time D/2
yields per channel the midpoint of A's and B's channels within ±1 (twice the
output is within one of the exact channel sum). -/
theorem transition_midpoint (pixel0 : Color) (tr : Bool) (D : ℚ) (c1 c2 : Color)
    (hD : 0 < D) (hne : pixel0 ≠ c2)
    (h1r : 0 ≤ c1.1) (h1g : 0 ≤ c1.2.1) (h1b : 0 ≤ c1.2.2)
    (h2r : 0 ≤ c2.1) (h2g : 0 ≤ c2.2.1) (h2b : 0 ≤ c2.2.2) :
    (c1.1 + c2.1 - 1 ≤ 2 * ((transition_animation pixel0 tr (D / 2) D c1 c2).1).1
      ∧ 2 * ((transition_animation pixel0 tr (D / 2) D c1 c2).1).1 ≤ c1.1 + c2.1)
    ∧ (c1.2.1 + c2.2.1 - 1 ≤ 2 * ((transition_animation pixel0 tr (D / 2) D c1 c2).1).2.1
      ∧ 2 * ((transition_animation pixel0 tr (D / 2) D c1 c2).1).2.1 ≤ c1.2.1 + c2.2.1)
    ∧ (c1.2.2 + c2.2.2 - 1 ≤ 2 * ((transition_animation pixel0 tr (D / 2) D c1 c2).1).2.2
      ∧ 2 * ((transition_animation pixel0 tr (D / 2) D c1 c2).1).2.2 ≤ c1.2.2 + c2.2.2) := by
  have hcond : ¬(pixel0 = c2 ∨ D / 2 > D) := by
    push_neg
    exact ⟨hne, by linarith⟩
  unfold transition_animation
  rw [if_neg hcond]
  exact ⟨pyInt_midpoint c1.1 c2.1 h1r h2r D hD,
         pyInt_midpoint c1.2.1 c2.2.1 h1g h2g D hD,
         pyInt_midpoint c1.2.2 c2.2.2 h1b h2b D hD⟩

/-- C9 witness: blending (1,1,1) toward (10,20,30) over duration 1, sampled at
elapsed 1/2, lands within one of each channel midpoint. -/
theorem transition_midpoint_witness :
    (1 + 10 - 1 ≤ 2 * ((transition_animation (0, 0, 0) true (1 / 2) 1 (1, 1, 1) (10, 20, 30)).1).1
      ∧ 2 * ((transition_animation (0, 0, 0) true (1 / 2) 1 (1, 1, 1) (10, 20, 30)).1).1 ≤ 1 + 10)
    ∧ (1 + 20 - 1 ≤ 2 * ((transition_animation (0, 0, 0) true (1 / 2) 1 (1, 1, 1) (10, 20, 30)).1).2.1
      ∧ 2 * ((transition_animation (0, 0, 0) true (1 / 2) 1 (1, 1, 1) (10, 20, 30)).1).2.1 ≤ 1 + 20)
    ∧ (1 + 30 - 1 ≤ 2 * ((transition_animation (0, 0, 0) true (1 / 2) 1 (1, 1, 1) (10, 20, 30)).1).2.2
      ∧ 2 * ((transition_animation (0, 0, 0) true (1 / 2) 1 (1, 1, 1) (10, 20, 30)).1).2.2 ≤ 1 + 30) :=
  transition_midpoint (0, 0, 0) true 1 (1, 1, 1) (10, 20, 30) one_pos (by decide)
    (by decide) (by decide) (by decide) (by decide) (by decide) (by decide)


end LedHandler

/-- Each channel of a color is bounded by its channelwise maximum. -/
theorem maxChannel_bounds (c : Color) :
    c.1 ≤ maxChannel c ∧ c.2.1 ≤ maxChannel c ∧ c.2.2 ≤ maxChannel c := by
  unfold maxChannel
  refine ⟨le_max_left _ _, ?_, ?_⟩
  · exact le_trans (le_max_left _ _) (le_max_right _ _)
  · exact le_trans (le_max_right _ _) (le_max_right _ _)

/-- The channelwise maximum is attained at one of the channels. -/
theorem maxChannel_cases (c : Color) :
    maxChannel c = c.1 ∨ maxChannel c = c.2.1 ∨ maxChannel c = c.2.2 := by
  unfold maxChannel
  rcases max_choice c.1 (max c.2.1 c.2.2) with h | h
  · exact Or.inl h
  · rcases max_choice c.2.1 c.2.2 with h2 | h2
    · exact Or.inr (Or.inl (h.trans h2))
    · exact Or.inr (Or.inr (h.trans h2))

/-- The truncated rescale of a channel bounded by the maximum lies in
`[0, 255]`. -/
theorem pyInt_scale_bounds (x m : ℤ) (hm : 0 < m) (hx : 0 ≤ x) (hxm : x ≤ m) :
    0 ≤ pyInt ((x : ℚ) * 255 / (m : ℚ)) ∧ pyInt ((x : ℚ) * 255 / (m : ℚ)) ≤ 255 := by
  have hmq : (0 : ℚ) < (m : ℚ) := by exact_mod_cast hm
  have hxq : (0 : ℚ) ≤ (x : ℚ) := by exact_mod_cast hx
  have hq : (0 : ℚ) ≤ (x : ℚ) * 255 / (m : ℚ) := by positivity
  unfold pyInt
  rw [if_pos hq]
  refine ⟨Int.floor_nonneg.mpr hq, ?_⟩
  have hle : (x : ℚ) * 255 / (m : ℚ) ≤ 255 := by
    rw [div_le_iff₀ hmq]
    have hxmq : (x : ℚ) ≤ (m : ℚ) := by exact_mod_cast hxm
    nlinarith
  calc ⌊(x : ℚ) * 255 / (m : ℚ)⌋ ≤ ⌊(255 : ℚ)⌋ := Int.floor_le_floor hle
    _ = 255 := by norm_num

/-- The maximal channel rescales to exactly 255. -/
theorem pyInt_scale_max (m : ℤ) (hm : 0 < m) :
    pyInt ((m : ℚ) * 255 / (m : ℚ)) = 255 := by
  have hmq : ((m : ℚ)) ≠ 0 := by exact_mod_cast hm.ne'
  have h : (m : ℚ) * 255 / (m : ℚ) = 255 := by field_simp
  rw [h]
  unfold pyInt
  rw [if_pos (by norm_num)]
  norm_num

/-- C10: `color_mix` is partial exactly at an all-zero elementwise sum: for
every pair of (componentwise nonnegative) color triples whose sum has a
positive maximum channel it succeeds with an output whose maximum channel is
exactly 255, while on two black inputs it raises `ZeroDivisionError`; the
latter is reachable through `_compute_col`'s both-active and both-sleeping
branches when the configured color and the peer color are both black. -/
theorem color_mix_partial :
    (∀ c1 c2 : Color,
      0 ≤ c1.1 → 0 ≤ c1.2.1 → 0 ≤ c1.2.2 → 0 ≤ c2.1 → 0 ≤ c2.2.1 → 0 ≤ c2.2.2 →
      0 < maxChannel (colorSum c1 c2) →
      ∃ out, color_mix c1 c2 = some out ∧ maxChannel out = 255)
    ∧ color_mix (0, 0, 0) (0, 0, 0) = none
    ∧ (∀ sc : Color, compute_col "active" "active" (0, 0, 0) sc (0, 0, 0)
        = .error .divByZero)
    ∧ (∀ ac : Color, compute_col "sleep" "sleep" ac (0, 0, 0) (0, 0, 0)
        = .error .divByZero) := by
  refine ⟨?_, rfl, fun sc => rfl, fun ac => rfl⟩
  intro c1 c2 h1 h2 h3 h4 h5 h6 hpos
  have hcm1 : 0 ≤ (colorSum c1 c2).1 := by simp only [colorSum]; omega
  have hcm2 : 0 ≤ (colorSum c1 c2).2.1 := by simp only [colorSum]; omega
  have hcm3 : 0 ≤ (colorSum c1 c2).2.2 := by simp only [colorSum]; omega
  have hb1 := pyInt_scale_bounds (colorSum c1 c2).1 (maxChannel (colorSum c1 c2))
    hpos hcm1 (maxChannel_bounds _).1
  have hb2 := pyInt_scale_bounds (colorSum c1 c2).2.1 (maxChannel (colorSum c1 c2))
    hpos hcm2 (maxChannel_bounds _).2.1
  have hb3 := pyInt_scale_bounds (colorSum c1 c2).2.2 (maxChannel (colorSum c1 c2))
    hpos hcm3 (maxChannel_bounds _).2.2
  unfold color_mix
  rw [if_neg (by omega)]
  refine ⟨_, rfl, ?_⟩
  apply le_antisymm
  · exact max_le hb1.2 (max_le hb2.2 hb3.2)
  · rcases maxChannel_cases (colorSum c1 c2) with hcc | hcc | hcc
    · have h255 : pyInt (((colorSum c1 c2).1 : ℚ) * 255 / (maxChannel (colorSum c1 c2) : ℚ))
          = 255 := by
        rw [← hcc]
        exact pyInt_scale_max _ hpos
      exact le_of_eq_of_le h255.symm (maxChannel_bounds _).1
    · have h255 : pyInt (((colorSum c1 c2).2.1 : ℚ) * 255 / (maxChannel (colorSum c1 c2) : ℚ))
          = 255 := by
        rw [← hcc]
        exact pyInt_scale_max _ hpos
      exact le_of_eq_of_le h255.symm (maxChannel_bounds _).2.1
    · have h255 : pyInt (((colorSum c1 c2).2.2 : ℚ) * 255 / (maxChannel (colorSum c1 c2) : ℚ))
          = 255 := by
        rw [← hcc]
        exact pyInt_scale_max _ hpos
      exact le_of_eq_of_le h255.symm (maxChannel_bounds _).2.2

/-- C10 witness: mixing (1,0,0) with itself succeeds and normalizes the
maximum channel to 255. -/
theorem color_mix_partial_witness :
    ∃ out, color_mix (1, 0, 0) (1, 0, 0) = some out ∧ maxChannel out = 255 :=
  color_mix_partial.1 (1, 0, 0) (1, 0, 0) (by decide) (by decide) (by decide)
    (by decide) (by decide) (by decide) (by decide)

/-- `gcd_two` computes `Nat.gcd`: the fuel `b + 1` always suffices for
Euclid's loop. -/
theorem gcd_two_fuel_eq : ∀ (fuel a b : ℕ), b < fuel → gcd_two_fuel fuel a b = Nat.gcd a b := by
  intro fuel
  induction fuel with
  | zero => intro a b h; omega
  | succ f ih =>
    intro a b h
    unfold gcd_two_fuel
    by_cases hb : b = 0
    · simp [hb]
    · rw [if_neg hb, ih b (a % b) (by have := Nat.mod_lt a (Nat.pos_of_ne_zero hb); omega)]
      rw [Nat.gcd_comm b (a % b), ← Nat.gcd_rec b a, Nat.gcd_comm b a]

theorem gcd_two_eq (a b : ℕ) : gcd_two a b = Nat.gcd a b :=
  gcd_two_fuel_eq (b + 1) a b (Nat.lt_succ_self b)

/-- The left fold of `gcd_two` divides its seed and every element folded in. -/
theorem foldl_gcd_dvd : ∀ (ns : List ℕ) (n : ℕ),
    (ns.foldl gcd_two n) ∣ n ∧ ∀ m ∈ ns, (ns.foldl gcd_two n) ∣ m := by
  intro ns
  induction ns with
  | nil => intro n; simp
  | cons b t ih =>
    intro n
    simp only [List.foldl_cons]
    obtain ⟨h1, h2⟩ := ih (gcd_two n b)
    have hgl : gcd_two n b ∣ n := by rw [gcd_two_eq]; exact Nat.gcd_dvd_left n b
    have hgr : gcd_two n b ∣ b := by rw [gcd_two_eq]; exact Nat.gcd_dvd_right n b
    refine ⟨h1.trans hgl, ?_⟩
    intro m hm
    rcases List.mem_cons.mp hm with rfl | hm
    · exact h1.trans hgr
    · exact h2 m hm

/-- Scaling twice composes multiplicatively. -/
theorem element_scale_mul (l : List Dec) (a b : ℕ) :
    element_scale (element_scale l a) b = element_scale l (a * b) := by
  unfold element_scale
  rw [List.map_map]
  apply List.map_congr_left
  intro e _
  simp only [Function.comp_apply, Dec.mk.injEq]
  constructor
  · push_cast
    ring
  · trivial

/-- A successful `_scale_to_int` returns a positive factor that makes every
element integral. -/
theorem scale_to_int_ok : ∀ (fuel : ℕ) (l : List Dec) (s : ℕ),
    scale_to_int fuel l = some s →
    0 < s ∧ all_ints (element_scale l s) = true := by
  intro fuel
  induction fuel with
  | zero =>
    intro l s h
    unfold scale_to_int at h
    split_ifs at h with hint
    rw [Option.some.injEq] at h
    subst h
    refine ⟨one_pos, ?_⟩
    unfold all_ints at hint ⊢
    rw [List.all_eq_true] at hint ⊢
    intro e he
    obtain ⟨d, hd, rfl⟩ := List.mem_map.mp he
    have := hint d hd
    simpa [Dec.isInt] using this
  | succ f ih =>
    intro l s h
    unfold scale_to_int at h
    split_ifs at h with hint
    · rw [Option.some.injEq] at h
      subst h
      refine ⟨one_pos, ?_⟩
      unfold all_ints at hint ⊢
      rw [List.all_eq_true] at hint ⊢
      intro e he
      obtain ⟨d, hd, rfl⟩ := List.mem_map.mp he
      have := hint d hd
      simpa [Dec.isInt] using this
    · rw [Option.map_eq_some'] at h
      obtain ⟨s', hs', rfl⟩ := h
      obtain ⟨hpos, hall⟩ := ih (element_scale l 10) s' hs'
      rw [element_scale_mul] at hall
      exact ⟨by omega, hall⟩

/-- An integral positive `Dec` rounds to a natural number carrying its exact
value. -/
theorem Dec.toNat_val (d : Dec) (hden : 0 < d.den) (hnum : 0 < d.num)
    (hint : d.isInt = true) :
    0 < d.toInt.toNat ∧ ((d.toInt.toNat : ℚ)) = d.val := by
  unfold Dec.isInt at hint
  rw [beq_iff_eq] at hint
  have hdvd : (d.den : ℤ) ∣ d.num := Int.dvd_of_emod_eq_zero hint
  obtain ⟨k, hk⟩ := hdvd
  have hdenz : (d.den : ℤ) ≠ 0 := by exact_mod_cast hden.ne'
  have htoint : d.toInt = k := by
    unfold Dec.toInt
    rw [hk, Int.mul_ediv_cancel_left k hdenz]
  have hkpos : 0 < k := by
    by_contra hneg
    push_neg at hneg
    have : d.num ≤ 0 := by
      rw [hk]
      exact mul_nonpos_of_nonneg_of_nonpos (by exact_mod_cast hden.le) hneg
    omega
  constructor
  · rw [htoint]; omega
  · rw [htoint]
    unfold Dec.val
    rw [hk]
    push_cast
    field_simp
    exact_mod_cast Int.toNat_of_nonneg hkpos.le

/-- Value of a `Dec` with a natural numerator. -/
theorem Dec.val_mk_nat (n s : ℕ) : (Dec.mk (n : ℤ) s).val = (n : ℚ) / (s : ℚ) := by
  unfold Dec.val
  norm_num

/-- Value of a scaled element. -/
theorem Dec.val_scale (d : Dec) (s : ℕ) :
    (Dec.mk (d.num * s) d.den).val = d.val * s := by
  unfold Dec.val
  push_cast
  ring

/-- C7: whenever `utils.gcd` computes a value `g` on positive inputs, `g`
evenly divides every input (`d.val = k * g.val` with `k` a whole number), and
on a one-element list it returns exactly that element's value. -/
theorem gcd_divides (fuel : ℕ) (l : List Dec) (g : Dec)
    (hden : ∀ d ∈ l, 0 < d.den) (hpos : ∀ d ∈ l, 0 < d.num)
    (heq : gcd fuel l = some g) :
    (∀ d ∈ l, ∃ k : ℕ, d.val = (k : ℚ) * g.val)
    ∧ (∀ d : Dec, l = [d] → g.val = d.val) := by
  unfold gcd at heq
  cases hscale : scale_to_int fuel l with
  | none => rw [hscale] at heq; cases heq
  | some s =>
    rw [hscale] at heq
    obtain ⟨hs, hall⟩ := scale_to_int_ok fuel l s hscale
    have hsq : ((s : ℚ)) ≠ 0 := by exact_mod_cast hs.ne'
    -- the natural value of each scaled element
    have helem : ∀ d ∈ l, 0 < ((Dec.mk (d.num * s) d.den).toInt.toNat)
        ∧ (((Dec.mk (d.num * s) d.den).toInt.toNat : ℚ)) = d.val * s := by
      intro d hd
      have hmem : (Dec.mk (d.num * s) d.den) ∈ element_scale l s :=
        List.mem_map.mpr ⟨d, hd, rfl⟩
      have hint : (Dec.mk (d.num * s) d.den).isInt = true := by
        unfold all_ints at hall
        exact List.all_eq_true.mp hall _ hmem
      have := Dec.toNat_val (Dec.mk (d.num * s) d.den) (hden d hd)
        (by have := hpos d hd; positivity) hint
      rw [Dec.val_scale] at this
      exact this
    cases l with
    | nil =>
      simp [element_scale] at heq
    | cons d0 ds =>
      simp only [element_scale, List.map_cons, Option.some.injEq] at heq
      subst heq
      have hfold := foldl_gcd_dvd
        ((ds.map (fun e => Dec.mk (e.num * (s : ℤ)) e.den)).map (fun e => e.toInt.toNat))
        ((Dec.mk (d0.num * (s : ℤ)) d0.den).toInt.toNat)
      have hGpos : 0 <
          ((ds.map (fun e => Dec.mk (e.num * (s : ℤ)) e.den)).map
            (fun e => e.toInt.toNat)).foldl gcd_two
            ((Dec.mk (d0.num * (s : ℤ)) d0.den).toInt.toNat) := by
        apply Nat.pos_of_ne_zero
        intro hG
        have h0 := hfold.1
        rw [hG] at h0
        have h1 := Nat.eq_zero_of_zero_dvd h0
        have := (helem d0 (by simp)).1
        omega
      constructor
      · intro d hd
        have hdvd : (((ds.map (fun e => Dec.mk (e.num * (s : ℤ)) e.den)).map
              (fun e => e.toInt.toNat)).foldl gcd_two
              ((Dec.mk (d0.num * (s : ℤ)) d0.den).toInt.toNat))
            ∣ ((Dec.mk (d.num * (s : ℤ)) d.den).toInt.toNat) := by
          rcases List.mem_cons.mp hd with rfl | hd2
          · exact hfold.1
          · exact hfold.2 _
              (List.mem_map.mpr ⟨_, List.mem_map.mpr ⟨d, hd2, rfl⟩, rfl⟩)
        obtain ⟨k, hk⟩ := hdvd
        refine ⟨k, ?_⟩
        have hv := (helem d hd).2
        rw [hk] at hv
        rw [Dec.val_mk_nat, ← mul_div_assoc, eq_div_iff hsq]
        push_cast at hv ⊢
        linear_combination -hv
      · intro d hd
        rw [List.cons.injEq] at hd
        obtain ⟨rfl, rfl⟩ := hd
        simp only [List.map_nil, List.foldl_nil]
        rw [Dec.val_mk_nat, div_eq_iff hsq]
        exact (helem d0 (by simp)).2

/-- Splitting a string without the separator yields the string itself. -/
theorem pySplit_no_sep (c : Char) : ∀ s : Str, c ∉ s → pySplit c s = [s] := by
  intro s
  induction s with
  | nil => intro _; rfl
  | cons x xs ih =>
    intro h
    have hx : x ≠ c := fun hh => h (hh ▸ List.mem_cons_self x xs)
    unfold pySplit
    rw [if_neg hx, ih (fun hm => h (List.mem_cons_of_mem x hm))]

/-- Splitting at the first separator occurrence peels off the prefix. -/
theorem pySplit_append (c : Char) : ∀ (a b : Str), c ∉ a →
    pySplit c (a ++ c :: b) = a :: pySplit c b := by
  intro a
  induction a with
  | nil =>
    intro b _
    show pySplit c (c :: b) = [] :: pySplit c b
    simp [pySplit]
  | cons x xs ih =>
    intro b h
    have hx : x ≠ c := fun hh => h (hh ▸ List.mem_cons_self x xs)
    show pySplit c (x :: (xs ++ c :: b)) = (x :: xs) :: pySplit c b
    simp only [List.cons_append, pySplit]
    rw [if_neg hx, ih b (fun hm => h (List.mem_cons_of_mem x hm))]

theorem digitChar_bounds (d : ℕ) (h : d < 10) :
    48 ≤ (digitChar d).toNat ∧ (digitChar d).toNat ≤ 57 := by
  interval_cases d <;> decide

theorem charToDigit_digitChar (d : ℕ) (h : d < 10) :
    charToDigit (digitChar d) = some d := by
  interval_cases d <;> decide

/-- Every character produced by `natToDigitsAux` is a decimal digit. -/
theorem natToDigitsAux_mem : ∀ (fuel n : ℕ), n < fuel →
    ∀ ch ∈ natToDigitsAux fuel n, ∃ d, d < 10 ∧ ch = digitChar d := by
  intro fuel
  induction fuel with
  | zero => intro n h; omega
  | succ f ih =>
    intro n h ch hch
    unfold natToDigitsAux at hch
    split_ifs at hch with h10
    · rw [List.mem_singleton] at hch
      exact ⟨n, h10, hch⟩
    · rcases List.mem_append.mp hch with hm | hm
      · exact ih (n / 10) (by omega) ch hm
      · rw [List.mem_singleton] at hm
        exact ⟨n % 10, by omega, hm⟩

theorem natToDigits_mem (n : ℕ) :
    ∀ ch ∈ natToDigits n, ∃ d, d < 10 ∧ ch = digitChar d :=
  natToDigitsAux_mem (n + 1) n (Nat.lt_succ_self n)

/-- Characters outside the digit range do not occur in a printed number. -/
theorem natToDigits_not_mem (n : ℕ) (c : Char)
    (hc : c.toNat < 48 ∨ 57 < c.toNat) : c ∉ natToDigits n := by
  intro hmem
  obtain ⟨d, hd, hcd⟩ := natToDigits_mem n c hmem
  have hb := digitChar_bounds d hd
  rw [hcd] at hc
  omega

theorem natToDigitsAux_ne_nil (fuel n : ℕ) (h : n < fuel) :
    natToDigitsAux fuel n ≠ [] := by
  cases fuel with
  | zero => omega
  | succ f =>
    unfold natToDigitsAux
    split_ifs
    · simp
    · simp

theorem parseNatAux_append : ∀ (s t : Str) (acc : ℕ),
    parseNatAux (s ++ t) acc = (parseNatAux s acc).bind (fun a => parseNatAux t a) := by
  intro s
  induction s with
  | nil => intro t acc; rfl
  | cons c cs ih =>
    intro t acc
    show parseNatAux (c :: (cs ++ t)) acc = _
    cases hcd : charToDigit c with
    | some d =>
      simp only [parseNatAux, hcd]
      exact ih t (acc * 10 + d)
    | none =>
      simp only [parseNatAux, hcd]
      rfl

theorem parseNat_natToDigitsAux : ∀ (fuel n : ℕ), n < fuel →
    parseNatAux (natToDigitsAux fuel n) 0 = some n := by
  intro fuel
  induction fuel with
  | zero => intro n h; omega
  | succ f ih =>
    intro n h
    unfold natToDigitsAux
    split_ifs with h10
    · simp [parseNatAux, charToDigit_digitChar n h10]
    · rw [parseNatAux_append, ih (n / 10) (by omega)]
      simp [parseNatAux, charToDigit_digitChar (n % 10) (by omega)]
      omega

/-- Python's `int` undoes Python's `str` on a nonnegative int. -/
theorem parseNat_natToDigits (n : ℕ) : parseNat (natToDigits n) = some n := by
  have hne := natToDigitsAux_ne_nil (n + 1) n (Nat.lt_succ_self n)
  unfold natToDigits at hne ⊢
  cases hd : natToDigitsAux (n + 1) n with
  | nil => exact absurd hd hne
  | cons c cs =>
    have hpn : parseNat (c :: cs) = parseNatAux (c :: cs) 0 := rfl
    rw [hpn, ← hd]
    exact parseNat_natToDigitsAux (n + 1) n (Nat.lt_succ_self n)

/-- Removing a non-digit character leaves a printed number unchanged. -/
theorem filter_digits (n : ℕ) (c : Char) (hc : c.toNat < 48 ∨ 57 < c.toNat) :
    (natToDigits n).filter (fun x => x ≠ c) = natToDigits n := by
  apply List.filter_eq_self.mpr
  intro a ha
  obtain ⟨d, hd, hcd⟩ := natToDigits_mem n a ha
  have hb := digitChar_bounds d hd
  have : a ≠ c := by
    intro hEq
    rw [hEq] at hcd
    rw [← hcd] at hb
    omega
  simpa using this

/-- Stripping `'('`, `')'` and `' '` from `str((r, g, b))` leaves the digits
joined by bare commas. -/
theorem strip_tuple3 (r g b : ℕ) :
    pyRemove ' ' (pyRemove ')' (pyRemove '(' (strTuple3 r g b)))
      = natToDigits r ++ ',' :: (natToDigits g ++ ',' :: natToDigits b) := by
  have hP : ∀ n : ℕ,
      List.filter (fun a => !decide (a = ' ') && (!decide (a = ')') && !decide (a = '(')))
        (natToDigits n) = natToDigits n := by
    intro n
    apply List.filter_eq_self.mpr
    intro a ha
    obtain ⟨d, hd, hcd⟩ := natToDigits_mem n a ha
    have hb := digitChar_bounds d hd
    rw [hcd]
    simp only [Bool.and_eq_true, Bool.not_eq_true', decide_eq_false_iff_not]
    exact ⟨fun hEq => absurd (hEq ▸ hb) (by decide),
           fun hEq => absurd (hEq ▸ hb) (by decide),
           fun hEq => absurd (hEq ▸ hb) (by decide)⟩
  unfold strTuple3 pyRemove
  simp [List.filter_append]
  rw [hP r, hP g, hP b]

theorem tuple3_no_colon (r g b : ℕ) : ':' ∉ strTuple3 r g b := by
  have hr := natToDigits_not_mem r ':' (by decide)
  have hg := natToDigits_not_mem g ':' (by decide)
  have hb := natToDigits_not_mem b ':' (by decide)
  unfold strTuple3
  simp [List.mem_append, hr, hg, hb]

namespace ServerHandler

/-- C8: encoding any enumerated state with a 0–255 color triple via
`send_state`'s body and decoding it through the receiving device's room-topic
handler is the identity: the handler yields a `friend_update` carrying exactly
the same state string and color values. -/
theorem send_state_roundtrip (state : Str) (hs : state ∈ wireStates)
    (r g b : ℕ) (hr : r ≤ 255) (hg : g ≤ 255) (hb : b ≤ 255) :
    handle_room_msg (send_state_body state r g b) = some (state, [r, g, b]) := by
  have hcolon : ':' ∉ state := by
    simp only [wireStates, List.mem_cons, List.not_mem_nil, or_false] at hs
    rcases hs with rfl | rfl | rfl | rfl <;> decide
  unfold handle_room_msg send_state_body
  rw [pySplit_append ':' state _ hcolon,
      pySplit_no_sep ':' (strTuple3 r g b) (tuple3_no_colon r g b)]
  show (match (pySplit ','
      (pyRemove ' ' (pyRemove ')' (pyRemove '(' (strTuple3 r g b))))).mapM parseNat with
    | some vals => some (state, vals)
    | none => none) = some (state, [r, g, b])
  rw [strip_tuple3,
      pySplit_append ',' (natToDigits r) _ (natToDigits_not_mem r ',' (by decide)),
      pySplit_append ',' (natToDigits g) _ (natToDigits_not_mem g ',' (by decide)),
      pySplit_no_sep ',' (natToDigits b) (natToDigits_not_mem b ',' (by decide))]
  simp [List.mapM.loop, parseNat_natToDigits]

/-- C8 witness: the round trip at state `active` with color (10, 20, 255). -/
theorem send_state_roundtrip_witness :
    handle_room_msg (send_state_body ("active".data) 10 20 255)
      = some ("active".data, [10, 20, 255]) :=
  send_state_roundtrip ("active".data) (by decide) 10 20 255 (by decide) (by decide)
    (by decide)

end ServerHandler

/-- C7 witness: `gcd(6, 4, 10) = 2`, `gcd(1.5, 0.5) = 0.5` (as the fraction
5/10), the result divides each input, and a singleton list (here 2.0 written
as 4/2) returns its own value. -/
theorem gcd_divides_witness :
    gcd 0 [⟨6, 1⟩, ⟨4, 1⟩, ⟨10, 1⟩] = some ⟨2, 1⟩
    ∧ gcd 1 [⟨15, 10⟩, ⟨5, 10⟩] = some ⟨5, 10⟩
    ∧ (∃ k : ℕ, (Dec.mk 6 1).val = (k : ℚ) * (Dec.mk 2 1).val)
    ∧ (Dec.mk 2 1).val = (Dec.mk 4 2).val := by
  refine ⟨rfl, rfl, ?_, ?_⟩
  · exact (gcd_divides 0 [⟨6, 1⟩, ⟨4, 1⟩, ⟨10, 1⟩] ⟨2, 1⟩ (by decide) (by decide) rfl).1
      ⟨6, 1⟩ (by simp)
  · exact (gcd_divides 0 [⟨4, 2⟩] ⟨2, 1⟩ (by decide) (by decide) rfl).2 ⟨4, 2⟩ rfl

end LoveLamp
